import Mathlib

/-!
Verification of the mdlinker specification against a shallow embedding of its
Rust sources. Each section embeds the data model and operations of one part of
the code (src/rules/duplicate_alias.rs, src/rules/broken_wikilink.rs,
src/rules/similar_filename.rs, src/rules/unlinked_text.rs, src/rules.rs,
src/visitor.rs, src/lib.rs) and proves or refutes the corresponding claims.

Conventions of the embedding:
- File contents handled by the linter are guaranteed single-byte (the parser
  aborts with MultibyteError whenever `source.chars().count() != source.len()`),
  so Rust byte indices and Lean `List Char` indices coincide on all inputs the
  analyses ever see.
- `hashbrown::HashMap` values are modelled as association lists with at most
  one entry per key; `HashMap::insert` replaces the stored value and returns
  the previous one.
- Third-party collaborators (git2, glob, fuzzy_matcher, aho-corasick) are not
  part of this repository; they are either abstracted by universally
  quantified parameters or, where a claim depends on their behaviour, modelled
  from the specification (marked `Modelled from the spec:`).
-/

namespace Mdlinker

/-- Rust `str::to_lowercase`, restricted to the ASCII content this linter
processes (identical to mapping `Char.toLower` over the characters there). -/
def lowerStr (s : String) : String := ⟨s.data.map Char.toLower⟩

/-- An alias string; `Alias::new` has already lowercased it
(src/file/content/wikilink.rs, `Alias` is always lowercase). -/
abbrev Alias := String

/-- A file path, as the `PathBuf` values stored in the alias tables. -/
abbrev Fpath := String

/-- `hashbrown::HashMap::insert` on the association-list model: stores `v`
under `k` and returns the previously stored value, if any. When the key was
present its entry's value is replaced; otherwise a new entry is added. -/
def hmInsert (t : List (Alias × Fpath)) (k : Alias) (v : Fpath) :
    Option Fpath × List (Alias × Fpath) :=
  match t.lookup k with
  | none => (none, t ++ [(k, v)])
  | some old => (some old, t.map fun kv => cond (kv.1 == k) (k, v) kv)

/-- Replacing the value stored under `a` makes `lookup a` return the new value. -/
theorem lookup_replace (t : List (Alias × Fpath)) (a : Alias) (v old : Fpath)
    (h : t.lookup a = some old) :
    (t.map fun kv => cond (kv.1 == a) (a, v) kv).lookup a = some v := by
  induction t with
  | nil => simp [List.lookup] at h
  | cons kv rest ih =>
    obtain ⟨k, w⟩ := kv
    by_cases hk : k = a
    · subst hk
      simp [List.lookup]
    · have hne : (a == k) = false := beq_eq_false_iff_ne.mpr (Ne.symm hk)
      have hne2 : (k == a) = false := beq_eq_false_iff_ne.mpr hk
      simp only [List.lookup, hne] at h
      simp only [List.map_cons, hne2, cond_false, List.lookup, hne]
      exact ih h

/-- The key list is unchanged by a value replacement. -/
theorem keys_replace (t : List (Alias × Fpath)) (a : Alias) (v : Fpath) :
    ((t.map fun kv => cond (kv.1 == a) (a, v) kv).map Prod.fst) = t.map Prod.fst := by
  induction t with
  | nil => rfl
  | cons kv rest ih =>
    obtain ⟨k, w⟩ := kv
    by_cases hk : k = a
    · subst hk
      simp [ih]
    · have hne : (k == a) = false := beq_eq_false_iff_ne.mpr hk
      simp [hne, ih]

/-- One DuplicateAlias report, as produced by `DuplicateAlias::new`: the
colliding alias, the file whose front matter declared it, and the previous
owner returned by the table insert. -/
structure DupReport where
  aliasName : Alias
  newFile : Fpath
  oldOwner : Fpath
deriving DecidableEq

/-- `DuplicateAliasVisitor::finalize_file` (src/rules/duplicate_alias.rs
130-153): each front-matter alias of the file at `path` is inserted into the
alias table (`alias_table.insert(alias, path)`); when the insert returns a
previous value the alias is recorded in `duplicate_aliases` and one report is
pushed, built by `DuplicateAlias::new`, which fails with
`AliasAndFilenameSame` when the previous owner is `path` itself (modelled by
`Except.error`). -/
def finalizeFileDup (table : List (Alias × Fpath)) (dups : List Alias)
    (reports : List DupReport) (aliases : List Alias) (path : Fpath) :
    Except Unit (List (Alias × Fpath) × List Alias × List DupReport) :=
  match aliases with
  | [] => .ok (table, dups, reports)
  | a :: rest =>
    let out := hmInsert table a path
    match out.1 with
    | none => finalizeFileDup out.2 dups reports rest path
    | some old =>
      if old = path then .error ()
      else finalizeFileDup out.2 (dups ++ [a]) (reports ++ [⟨a, path, old⟩]) rest path

/-- C1 counterexample: with the table owning alias "a" at "p1.md", a second
file "p2.md" declaring "a" does NOT leave the old mapping in place: the insert
replaces it, so afterwards the table maps "a" to "p2.md", contradicting the
claim that "the insertion is rejected so that the old mapping (the first
owner) is retained". -/
theorem duplicate_alias_first_wins_refuted :
    finalizeFileDup [("a", "p1.md")] [] [] ["a"] "p2.md" =
      .ok ([("a", "p2.md")], ["a"], [⟨"a", "p2.md", "p1.md"⟩]) ∧
    (([("a", "p2.md")] : List (Alias × Fpath)).lookup "a" = some "p2.md") ∧
    some "p2.md" ≠ some "p1.md" := by
  refine ⟨rfl, by decide, by decide⟩

/-- C1 (amended): when a front-matter alias `a` collides with an existing key
owned by a different file, the insertion REPLACES the old mapping (the
declaring file becomes the owner), exactly one DuplicateAlias report is
generated for the collision, and the table still maps each lowercase alias to
at most one path (its key list stays duplicate-free). -/
theorem duplicate_alias_collision_behaviour
    (table : List (Alias × Fpath)) (a : Alias) (path old : Fpath)
    (hold : table.lookup a = some old) (hne : old ≠ path) :
    ∃ tNew, finalizeFileDup table [] [] [a] path = .ok (tNew, [a], [⟨a, path, old⟩]) ∧
      tNew.lookup a = some path ∧
      tNew.map Prod.fst = table.map Prod.fst := by
  refine ⟨table.map fun kv => cond (kv.1 == a) (a, path) kv, ?_, ?_, ?_⟩
  · simp only [finalizeFileDup, hmInsert, hold, if_neg hne, List.nil_append]
  · exact lookup_replace table a path old hold
  · exact keys_replace table a path

/-- Witness for the amended C1 theorem at a concrete collision. -/
theorem duplicate_alias_collision_behaviour_witness :
    ∃ tNew, finalizeFileDup [("a", "p1.md")] [] [] ["a"] "p2.md" =
        .ok (tNew, ["a"], [⟨"a", "p2.md", "p1.md"⟩]) ∧
      tNew.lookup "a" = some "p2.md" ∧
      tNew.map Prod.fst = ([("a", "p1.md")] : List (Alias × Fpath)).map Prod.fst :=
  duplicate_alias_collision_behaviour [("a", "p1.md")] "a" "p2.md" "p1.md"
    (by decide) (by decide)

/-! Broken wikilinks (C2). -/

/-- A wikilink/tag occurrence collected by `WikilinkVisitor`: the (lowercased)
alias and its source span. -/
structure WlOcc where
  aliasName : Alias
  spanStart : Nat
  spanLen : Nat
deriving DecidableEq

/-- Rust `alias.as_str().contains("..")`. -/
def hasDotDot : List Char → Bool
  | '.' :: '.' :: _ => true
  | _ :: rest => hasDotDot rest
  | [] => false

/-- The relative-path test of `BrokenWikilinkVisitor::_finalize_file`
(src/rules/broken_wikilink.rs:149):
`alias.as_str().starts_with('.') || alias.as_str().contains("..")`. -/
def looksLikeRelativePath (a : Alias) : Bool :=
  (a.data.head? == some '.') || hasDotDot a.data

/-- `BrokenWikilinkVisitor::_finalize_file` (src/rules/broken_wikilink.rs
136-173): for each collected occurrence, when its alias is a key of neither
the primary alias table nor the additional (path-suffix) table, a report is
pushed unless the alias looks like a relative path, in which case the
occurrence is skipped with a warning. We keep the reported occurrences. -/
def brokenWikilinks (aliasTable additionalTable : List (Alias × Fpath))
    (wikilinks : List WlOcc) : List WlOcc :=
  wikilinks.filterMap fun w =>
    if (aliasTable.lookup w.aliasName).isNone && (additionalTable.lookup w.aliasName).isNone then
      if looksLikeRelativePath w.aliasName then none else some w
    else none

/-- C2: an occurrence yields a BrokenWikilink report iff its alias is a key of
neither table, except that a relative-path-looking alias (starting with `.` or
containing `..`) is never reported regardless of table membership. -/
theorem broken_wikilink_iff (t1 t2 : List (Alias × Fpath)) (ws : List WlOcc) (w : WlOcc) :
    w ∈ brokenWikilinks t1 t2 ws ↔
      w ∈ ws ∧ (t1.lookup w.aliasName).isNone = true ∧ (t2.lookup w.aliasName).isNone = true ∧
        looksLikeRelativePath w.aliasName = false := by
  simp only [brokenWikilinks, List.mem_filterMap]
  constructor
  · rintro ⟨a, ha, hfa⟩
    by_cases h1 : ((t1.lookup a.aliasName).isNone && (t2.lookup a.aliasName).isNone) = true
    · rw [if_pos h1] at hfa
      by_cases h2 : looksLikeRelativePath a.aliasName = true
      · rw [if_pos h2] at hfa; exact absurd hfa (by simp)
      · rw [if_neg h2] at hfa
        obtain rfl : a = w := by simpa using hfa
        simp only [Bool.and_eq_true] at h1
        exact ⟨ha, h1.1, h1.2, by simpa using h2⟩
    · rw [if_neg h1] at hfa; exact absurd hfa (by simp)
  · rintro ⟨hw, h1, h2, h3⟩
    refine ⟨w, hw, ?_⟩
    rw [if_pos (by simp [h1, h2]), if_neg (by simp [h3])]

/-! The fix controller (C3, C5), src/lib.rs `fix`. -/

/-- An abstract check-and-fix environment: `check` runs the full check pass on
the current world state and yields the surviving reports; `fixOne` attempts one
report's fix, returning the new world state and whether the fix changed
anything (`Some(())` versus `None` in `ReportTrait::fix`). -/
structure CheckFixModel (σ ρ : Type) where
  check : σ → List ρ
  fixOne : σ → ρ → σ × Bool

/-- The fix-attempt loop of `fix` (src/lib.rs:166-183): every report's fix is
attempted in order, `any_fixes` accumulating whether anything changed. -/
def fixAttemptAll {σ ρ : Type} (m : CheckFixModel σ ρ) (s : σ) (reports : List ρ) :
    σ × Bool :=
  reports.foldl (fun acc r => ((m.fixOne acc.1 r).1, acc.2 || (m.fixOne acc.1 r).2))
    (s, false)

/-- `fix` (src/lib.rs:118-206) after its version-control gate: run `check`
once, attempt every report's fix, and then run `check` exactly once more iff
any fix changed something; the result of that single re-check (or of the first
check when nothing changed) is returned. There is no loop. -/
def fixRun {σ ρ : Type} (m : CheckFixModel σ ρ) (s : σ) : List ρ :=
  let reports := m.check s
  let out := fixAttemptAll m s reports
  if out.2 then m.check out.1 else reports

/-- Modelled from the spec: the fix-point loop that the claim (and the `fix`
doc comment, "Runs `check` in a loop until no more fixes can be made")
describes — run check, fix all, and repeat the whole fix-then-check loop until
a fix pass changes nothing; `fuel` bounds the iteration. This is absent from
src/lib.rs, which performs a single fix pass. -/
def fixLoopSpec {σ ρ : Type} (m : CheckFixModel σ ρ) : Nat → σ → List ρ
  | 0, s => m.check s
  | fuel + 1, s =>
    let reports := m.check s
    let out := fixAttemptAll m s reports
    if out.2 then fixLoopSpec m fuel out.1 else reports

/-- A world with two fixable findings of which each fix pass can clear only
one (exactly the documented UnlinkedText situation: each fix rewrites the file
from its own pre-fix snapshot, so one pass durably wraps a single mention):
the state counts the findings cleared so far, `check` still reports finding
`s` while `s < 2`, and fixing any report advances the state and reports a
change. -/
def twoMentionModel : CheckFixModel Nat Nat where
  check := fun s => if s < 2 then [s] else []
  fixOne := fun s _ => (s + 1, true)

/-- C3: the fix controller does NOT repeat the fix-then-check loop. On
`twoMentionModel` the code's `fix` returns the non-empty report list of its
single re-check — a report whose fix would still change something — whereas
the loop described by the claim (and by the doc comment of `fix`) reaches the
fix point and returns no reports. -/
theorem fix_controller_single_pass :
    fixRun twoMentionModel 0 = [1] ∧
    (fixAttemptAll twoMentionModel 1 (fixRun twoMentionModel 0)).2 = true ∧
    fixLoopSpec twoMentionModel 3 0 = [] := by
  refine ⟨rfl, rfl, rfl⟩

/-! The version-control gate of `fix` (C5). -/

/-- Outcome of the git interaction at the top of `fix` (src/lib.rs:118-142):
`Repository::open_from_env()` may fail (`notARepo` — in particular when the
working tree is not under version control), the status query of
`is_repo_dirty` may fail (`statusError`), or the status query reports the
tree `clean` or `dirty`. git2 itself is an external crate; only these four
outcomes reach the gate's logic. -/
inductive RepoState where
  | notARepo
  | statusError
  | clean
  | dirty
deriving DecidableEq

/-- What the gate decides before any file is touched. -/
inductive GateOutcome where
  | abortGitError
  | abortDirtyRepo
  | proceed
deriving DecidableEq

/-- The dirty check `if !config.allow_dirty && is_dirty` (src/lib.rs:123). -/
def gateDirtyCheck (allowDirty isDirty : Bool) : GateOutcome :=
  if !allowDirty && isDirty then .abortDirtyRepo else .proceed

/-- The version-control gate of `fix` (src/lib.rs:118-142): an error from
`Repository::open_from_env()` or from `is_repo_dirty` aborts with a GitError;
a dirty tree without `allow_dirty` aborts with DirtyRepo; otherwise the fix
proceeds. -/
def fixGate : RepoState → Bool → GateOutcome
  | .notARepo, _ => .abortGitError
  | .statusError, _ => .abortGitError
  | .clean, allowDirty => gateDirtyCheck allowDirty false
  | .dirty, allowDirty => gateDirtyCheck allowDirty true

/-- C5 counterexample: a working tree that is NOT under version control makes
`fix` abort (the `Err` arm of `Repository::open_from_env()` returns a
GitError), contradicting the claim that such a tree does not cause an abort. -/
theorem fix_gate_not_a_repo_aborts :
    fixGate .notARepo true = .abortGitError ∧
    fixGate .notARepo false = .abortGitError ∧
    GateOutcome.abortGitError ≠ GateOutcome.proceed := by
  refine ⟨rfl, rfl, by decide⟩

/-- C5 (amended): the fix entry point proceeds past the gate iff the
repository opens and reports a status that is either clean or dirty-but-
allowed; it aborts iff the tree is not under version control, the status
query fails, or the tree is dirty and the allow-dirty flag is unset. A clean
repository never aborts. -/
theorem fix_gate_characterisation (repo : RepoState) (allowDirty : Bool) :
    (fixGate repo allowDirty = .proceed ↔
      (repo = .clean ∨ (repo = .dirty ∧ allowDirty = true))) ∧
    (fixGate repo allowDirty = .abortDirtyRepo ↔
      (repo = .dirty ∧ allowDirty = false)) ∧
    (fixGate repo allowDirty = .abortGitError ↔
      (repo = .notARepo ∨ repo = .statusError)) := by
  cases repo <;> cases allowDirty <;> simp [fixGate, gateDirtyCheck]

/-! The visitor traversal (C4), src/visitor.rs `parse`. -/

/-- A parse tree node carrying its arena identity (comrak allocates nodes in
an arena; node identity is the arena pointer, modelled as a numeric id). The
node payloads play no role in the traversal itself. -/
inductive IdTree where
  | mk (nodeId : Nat) (children : List IdTree)

/-- The arena id of a node. -/
def IdTree.idOf : IdTree → Nat
  | .mk i _ => i

mutual
/-- comrak `arena_tree::Node::descendants`: an iterator over THIS node and all
of its descendants, in tree (preorder) order — the start node itself is the
first element. -/
def IdTree.descendants : IdTree → List IdTree
  | .mk i cs => .mk i cs :: IdTree.descendantsForest cs
/-- The concatenated descendant lists of a forest, in order. -/
def IdTree.descendantsForest : List IdTree → List IdTree
  | [] => []
  | t :: ts => t.descendants ++ IdTree.descendantsForest ts
end

/-- One step of what `parse` does to each visitor for one file. -/
inductive VisitEvent where
  | visit (nodeId : Nat)
  | finalizeFile
deriving DecidableEq

/-- `parse` (src/visitor.rs:120-186): after reading and parsing the file it
calls `visit(root, source)` once explicitly, then `visit(node, source)` for
every element of `root.descendants()` — whose first element is the root again
— and finally `finalize_file(source, path)` once. -/
def parseEvents (root : IdTree) : List VisitEvent :=
  ((root :: root.descendants).map fun n => VisitEvent.visit n.idOf) ++
    [VisitEvent.finalizeFile]

/-- C4 counterexample: on a single-node document the root node is visited
twice — once by the explicit root visit and once as the first element of
`descendants()`, which includes the start node — contradicting the claim that
no node, including the root, is visited more than once. -/
theorem parse_visits_root_twice :
    (parseEvents (.mk 0 [])).count (VisitEvent.visit 0) = 2 := by
  decide

/-- C4 (amended): for every parsed file whose nodes are distinct, `parse`
calls `visit` exactly TWICE for the root node and exactly once for every
other node, and `finalize_file` runs exactly once, after all visits. -/
theorem parse_visit_counts (root : IdTree)
    (hnodup : (root.descendants.map IdTree.idOf).Nodup) :
    (parseEvents root).count (VisitEvent.visit root.idOf) = 2 ∧
    (∀ n ∈ root.descendants, n.idOf ≠ root.idOf →
      (parseEvents root).count (VisitEvent.visit n.idOf) = 1) ∧
    (parseEvents root).count VisitEvent.finalizeFile = 1 ∧
    (parseEvents root).getLast? = some VisitEvent.finalizeFile := by
  have hinj : Function.Injective VisitEvent.visit := by
    intro x y hxy
    cases hxy
    rfl
  obtain ⟨i, cs⟩ := root
  have hdesc : (IdTree.mk i cs).descendants = .mk i cs :: IdTree.descendantsForest cs := rfl
  have hids : (IdTree.mk i cs).descendants.map IdTree.idOf =
      i :: (IdTree.descendantsForest cs).map IdTree.idOf := by
    rw [hdesc]
    rfl
  rw [hids] at hnodup
  have hnotmem : i ∉ (IdTree.descendantsForest cs).map IdTree.idOf :=
    (List.nodup_cons.mp hnodup).1
  have hcount_map : ∀ j : Nat,
      (parseEvents (.mk i cs)).count (VisitEvent.visit j) =
        ((i :: i :: (IdTree.descendantsForest cs).map IdTree.idOf).count j) := by
    intro j
    unfold parseEvents
    rw [List.count_append]
    have h1 : ((IdTree.mk i cs :: (IdTree.mk i cs).descendants).map fun n =>
        VisitEvent.visit n.idOf) =
        (i :: i :: (IdTree.descendantsForest cs).map IdTree.idOf).map VisitEvent.visit := by
      rw [hdesc]
      simp [IdTree.idOf, List.map_map]
    rw [h1, List.count_map_of_injective _ _ hinj]
    simp
  refine ⟨?_, ?_, ?_, ?_⟩
  · have hid : (IdTree.mk i cs).idOf = i := rfl
    rw [hid, hcount_map i]
    simp [List.count_cons, List.count_eq_zero_of_not_mem hnotmem, IdTree.idOf]
  · intro n hn hne
    rw [hcount_map n.idOf]
    have hmem : n.idOf ∈ i :: (IdTree.descendantsForest cs).map IdTree.idOf := by
      have : n.idOf ∈ (IdTree.mk i cs).descendants.map IdTree.idOf :=
        List.mem_map_of_mem IdTree.idOf hn
      rw [hids] at this
      exact this
    have hidne : n.idOf ≠ i := by
      simpa [IdTree.idOf] using hne
    have hmem2 : n.idOf ∈ (IdTree.descendantsForest cs).map IdTree.idOf := by
      rcases List.mem_cons.mp hmem with h | h
      · exact absurd h hidne
      · exact h
    have hle : ((IdTree.descendantsForest cs).map IdTree.idOf).count n.idOf ≤ 1 :=
      List.nodup_iff_count_le_one.mp (List.nodup_cons.mp hnodup).2 n.idOf
    have hpos : 0 < ((IdTree.descendantsForest cs).map IdTree.idOf).count n.idOf :=
      List.count_pos_iff.mpr hmem2
    have hone : ((IdTree.descendantsForest cs).map IdTree.idOf).count n.idOf = 1 :=
      le_antisymm hle hpos
    simp [List.count_cons, hidne, hone]
  · unfold parseEvents
    rw [List.count_append]
    have : ∀ l : List Nat, (l.map VisitEvent.visit).count VisitEvent.finalizeFile = 0 := by
      intro l
      induction l with
      | nil => rfl
      | cons x xs ih => simp [List.count_cons, ih]
    have h1 : ((IdTree.mk i cs :: (IdTree.mk i cs).descendants).map fun n =>
        VisitEvent.visit n.idOf) =
        ((IdTree.mk i cs :: (IdTree.mk i cs).descendants).map IdTree.idOf).map
          VisitEvent.visit := by
      simp [List.map_map]
    rw [h1, this]
    simp
  · have hlast : ∀ l : List VisitEvent,
        (l ++ [VisitEvent.finalizeFile]).getLast? = some VisitEvent.finalizeFile := by
      intro l
      induction l with
      | nil => rfl
      | cons x xs ih =>
        rw [List.cons_append]
        cases hx : xs ++ [VisitEvent.finalizeFile] with
        | nil => exact absurd hx (by simp)
        | cons y ys =>
          rw [List.getLast?_cons_cons, ← hx, ih]
    exact hlast _

/-- Witness for the amended C4 theorem on a concrete two-node document. -/
theorem parse_visit_counts_witness :
    (parseEvents (.mk 0 [.mk 1 []])).count (VisitEvent.visit (IdTree.mk 0 [.mk 1 []]).idOf)
        = 2 ∧
    (∀ n ∈ (IdTree.mk 0 [.mk 1 []]).descendants,
      n.idOf ≠ (IdTree.mk 0 [.mk 1 []]).idOf →
      (parseEvents (.mk 0 [.mk 1 []])).count (VisitEvent.visit n.idOf) = 1) ∧
    (parseEvents (.mk 0 [.mk 1 []])).count VisitEvent.finalizeFile = 1 ∧
    (parseEvents (.mk 0 [.mk 1 []])).getLast? = some VisitEvent.finalizeFile :=
  parse_visit_counts (.mk 0 [.mk 1 []]) (by decide)

/-! Similar filenames: report identity, exclude filtering and dedup (C6, C10). -/

/-- `get_filename` (src/file/name.rs): the path's final component
(`Path::file_name`, the text after the last `/`), truncated at its first `.`
(`fname.split('.').next()`), so the extension is dropped. -/
def getFilename (path : String) : String :=
  ⟨(path.data.foldl (fun acc c => if c = '/' then [] else acc ++ [c]) []).takeWhile
    (fun c => c != '.')⟩

/-- Rust `String` `<` (lexicographic byte order), on the character lists of
the ASCII strings compared here, as a computable comparison. -/
def strLtB : List Char → List Char → Bool
  | [], [] => false
  | [], _ :: _ => true
  | _ :: _, [] => false
  | a :: as, b :: bs => if a = b then strLtB as bs else decide (a.toNat < b.toNat)

/-- `strLtB` is asymmetric. -/
theorem strLtB_asymm : ∀ x y : List Char, strLtB x y = true → strLtB y x = false := by
  intro x
  induction x with
  | nil =>
    intro y _
    cases y with
    | nil => rfl
    | cons b bs => rfl
  | cons a as ih =>
    intro y hxy
    cases y with
    | nil => exact absurd hxy (by simp [strLtB])
    | cons b bs =>
      by_cases hab : a = b
      · subst hab
        rw [strLtB, if_pos rfl] at hxy ⊢
        exact ih bs hxy
      · rw [strLtB, if_neg hab] at hxy
        rw [strLtB, if_neg (Ne.symm hab)]
        have hlt : a.toNat < b.toNat := of_decide_eq_true hxy
        exact decide_eq_false (Nat.lt_asymm hlt)

/-- Two lists neither of which precedes the other are equal. -/
theorem strLtB_antisymm : ∀ x y : List Char,
    strLtB x y = false → strLtB y x = false → x = y := by
  intro x
  induction x with
  | nil =>
    intro y hxy _
    cases y with
    | nil => rfl
    | cons b bs => exact absurd hxy (by simp [strLtB])
  | cons a as ih =>
    intro y hxy hyx
    cases y with
    | nil => exact absurd hyx (by simp [strLtB])
    | cons b bs =>
      by_cases hab : a = b
      · subst hab
        rw [strLtB, if_pos rfl] at hxy hyx
        rw [ih bs hxy hyx]
      · exfalso
        rw [strLtB, if_neg hab] at hxy
        rw [strLtB, if_neg (Ne.symm hab)] at hyx
        have h1 : ¬ a.toNat < b.toNat := of_decide_eq_false hxy
        have h2 : ¬ b.toNat < a.toNat := of_decide_eq_false hyx
        have hnat : a.toNat = b.toNat :=
          Nat.le_antisymm (Nat.le_of_not_lt h2) (Nat.le_of_not_lt h1)
        have hchar : Char.ofNat a.toNat = Char.ofNat b.toNat := congrArg Char.ofNat hnat
        rw [Char.ofNat_toNat, Char.ofNat_toNat] at hchar
        exact hab hchar

/-- The report id built by `SimilarFilename::new`
(src/rules/similar_filename.rs:123-133): the two bare filenames are sorted
(`filename1 < filename2`, Rust String order = lexicographic byte order) and
joined as `name::similar::<first>::<second>`. -/
def similarId (file1 file2 : String) : String :=
  if strLtB (getFilename file1).data (getFilename file2).data then
    "name::similar::" ++ getFilename file1 ++ "::" ++ getFilename file2
  else
    "name::similar::" ++ getFilename file2 ++ "::" ++ getFilename file1

/-- A SimilarFilename report reduced to what `finalize` inspects: its
ErrorCode and its fuzzy score (the report's `PartialOrd` compares scores). -/
structure SimRep where
  id : String
  score : Int
deriving DecidableEq

/-- Stable insertion realising one step of `sort_by(|b, a| a.partial_cmp(b))`
(src/rules.rs:76): descending by score, preserving the original relative
order of equal-score reports exactly as Rust's stable sort does. -/
def insertDesc (r : SimRep) : List SimRep → List SimRep
  | [] => [r]
  | x :: xs => if x.score > r.score then x :: insertDesc r xs else r :: x :: xs

/-- The stable descending sort used by `dedupe_by_code`. -/
def sortByScoreDesc : List SimRep → List SimRep
  | [] => []
  | r :: rs => insertDesc r (sortByScoreDesc rs)

/-- `Vec::dedup_by(|a, b| a.id().0.to_lowercase() == b.id().0.to_lowercase())`
(src/rules.rs:77): collapse each run of ADJACENT reports with equal lowercased
id to its first element. `a` is the last retained report. -/
def dedupRun (a : SimRep) : List SimRep → List SimRep
  | [] => [a]
  | b :: rest =>
    if lowerStr b.id = lowerStr a.id then dedupRun a rest
    else a :: dedupRun b rest

/-- `dedupe_by_code` (src/rules.rs:73-79): stable-sort descending by score,
then collapse adjacent duplicates. -/
def dedupeByCode (l : List SimRep) : List SimRep :=
  match sortByScoreDesc l with
  | [] => []
  | a :: rest => dedupRun a rest

/-- `filter_by_excludes` (src/rules.rs:62-71), generic over the report type
(via `idOf`) and over the external `glob::Pattern` type (via `compile`, which
can fail like `Pattern::new`, and `pmatches`): a report is retained unless
some exclude pattern, lowercased, compiles AND matches the report's
lowercased id — `.map(...).unwrap_or(false)` turns a failed compilation into
a non-match. -/
def filterByExcludes {α Pat : Type} (idOf : α → String)
    (compile : String → Option Pat) (pmatches : Pat → String → Bool)
    (reports : List α) (excludes : List String) : List α :=
  reports.filter fun item =>
    ! excludes.any fun e =>
      ((compile (lowerStr e)).map fun p => pmatches p (lowerStr (idOf item))).getD false

/-- `VecHasIdExtensions::finalize` (src/rules.rs:82-87) as applied to
SimilarFilename reports: `dedupe_by_code(filter_by_excludes(self, excludes))`. -/
def finalizeSimilar {Pat : Type} (compile : String → Option Pat)
    (pmatches : Pat → String → Bool) (reports : List SimRep)
    (excludes : List String) : List SimRep :=
  dedupeByCode (filterByExcludes SimRep.id compile pmatches reports excludes)

/-- The sorted-pair id is symmetric in its two files. -/
theorem similarId_comm (p1 p2 : String) : similarId p1 p2 = similarId p2 p1 := by
  unfold similarId
  cases h1 : strLtB (getFilename p1).data (getFilename p2).data with
  | true =>
    rw [if_pos rfl]
    rw [strLtB_asymm _ _ h1]
    rw [if_neg (by simp)]
  | false =>
    cases h2 : strLtB (getFilename p2).data (getFilename p1).data with
    | true =>
      rw [if_neg (by simp [h1]), if_pos rfl]
    | false =>
      have hfe : (getFilename p1).data = (getFilename p2).data :=
        strLtB_antisymm _ _ h1 h2
      have hfeq : getFilename p1 = getFilename p2 := String.ext hfe
      rw [if_neg (by simp [h1]), if_neg (by simp [h2]), hfeq]

/-- `dedupRun a l` always starts with `a`. -/
theorem dedupRun_cons_head (l : List SimRep) : ∀ a, ∃ t, dedupRun a l = a :: t := by
  induction l with
  | nil => exact fun a => ⟨[], rfl⟩
  | cons b rest ih =>
    intro a
    by_cases h : lowerStr b.id = lowerStr a.id
    · obtain ⟨t, ht⟩ := ih a
      refine ⟨t, ?_⟩
      rw [dedupRun, if_pos h]
      exact ht
    · exact ⟨dedupRun b rest, by rw [dedupRun, if_neg h]⟩

/-- No two adjacent reports in the output of the dedup run share a lowercased
id. -/
theorem dedupRun_chain (l : List SimRep) :
    ∀ a, List.Chain' (fun x y => lowerStr x.id ≠ lowerStr y.id) (dedupRun a l) := by
  induction l with
  | nil =>
    intro a
    rw [dedupRun]
    exact List.chain'_singleton a
  | cons b rest ih =>
    intro a
    by_cases h : lowerStr b.id = lowerStr a.id
    · rw [dedupRun, if_pos h]
      exact ih a
    · rw [dedupRun, if_neg h]
      obtain ⟨t, ht⟩ := dedupRun_cons_head rest b
      have hch := ih b
      rw [ht] at hch ⊢
      exact List.chain'_cons.mpr ⟨fun heq => h heq.symm, hch⟩

/-- No two adjacent reports in the output of `dedupe_by_code` share a
lowercased id. -/
theorem dedupeByCode_chain (l : List SimRep) :
    List.Chain' (fun x y => lowerStr x.id ≠ lowerStr y.id) (dedupeByCode l) := by
  rcases hs : sortByScoreDesc l with _ | ⟨a, rest⟩
  · simp [dedupeByCode, hs]
  · simp only [dedupeByCode, hs]
    exact dedupRun_chain rest a

/-- C6 counterexample: two reports for the SAME file pair (a.md, b.md) — one
from each comparison direction, with different fuzzy scores — both survive
`finalize` in this instance: sorting is by score, a report for another pair
with a score between theirs separates them, and `dedup_by` only collapses
ADJACENT equal ids, so both are kept. (The claimed id prefix is also wrong:
ids start with `name::similar::`, not `similar::name::`.) -/
theorem similar_filename_pair_dedup_refuted :
    ((finalizeSimilar (fun _ => (none : Option Unit)) (fun _ _ => false)
        [⟨similarId "a.md" "b.md", 10⟩, ⟨"name::similar::c::d", 9⟩,
          ⟨similarId "b.md" "a.md", 8⟩] []).countP
      fun r => r.id == similarId "a.md" "b.md") = 2 ∧
    "similar::name::".data.isPrefixOf (similarId "a.md" "b.md").data = false := by
  refine ⟨by decide, by decide⟩

/-- C6 (amended): SimilarFilename reports for (A,B) and (B,A) carry the
identical ErrorCode — `name::similar::` followed by the two bare filenames in
lexicographically sorted order — and after finalize (exclude filtering plus
dedup) no two ADJACENT reports of the score-sorted output share a lowercased
ErrorCode. That adjacent-distinctness is all dedup guarantees: reports of one
pair separated in the sorted order by a surviving report of another pair can
all survive, so at most one surviving report per pair does not hold in
general. -/
theorem similar_filename_id_and_dedup {Pat : Type} (compile : String → Option Pat)
    (pmatches : Pat → String → Bool) (reports : List SimRep)
    (excludes : List String) (p1 p2 : String) :
    similarId p1 p2 = similarId p2 p1 ∧
    List.Chain' (fun x y => lowerStr x.id ≠ lowerStr y.id)
      (finalizeSimilar compile pmatches reports excludes) :=
  ⟨similarId_comm p1 p2, dedupeByCode_chain _⟩

/-- Evaluating `.map(...).unwrap_or(false)` on a possibly-failed compilation. -/
theorem optMapGetDFalse {Pat : Type} (o : Option Pat) (f : Pat → Bool) :
    ((o.map f).getD false = true) ↔ ∃ p, o = some p ∧ f p = true := by
  cases o <;> simp

/-- C10: exclude filtering retains a report unless some exclude pattern both
compiles (an invalid glob never does, `unwrap_or(false)`) and glob-matches the
report's lowercased ErrorCode; in particular an exclude entry whose
compilation fails suppresses no report. -/
theorem exclude_filter_characterisation {α Pat : Type} (idOf : α → String)
    (compile : String → Option Pat) (pmatches : Pat → String → Bool)
    (reports : List α) (excludes : List String) (r : α) :
    r ∈ filterByExcludes idOf compile pmatches reports excludes ↔
      r ∈ reports ∧
        ¬ ∃ e ∈ excludes, ∃ p, compile (lowerStr e) = some p ∧
            pmatches p (lowerStr (idOf r)) = true := by
  rw [filterByExcludes, List.mem_filter]
  simp only [Bool.not_eq_true', List.any_eq_false, optMapGetDFalse]
  constructor
  · rintro ⟨hmem, hall⟩
    refine ⟨hmem, ?_⟩
    rintro ⟨e, he, p, hp, hm⟩
    have := hall e he
    rw [hp] at this
    simp at this
    exact absurd hm (by simp [this])
  · rintro ⟨hmem, hnone⟩
    refine ⟨hmem, ?_⟩
    intro e he
    cases hp : compile (lowerStr e) with
    | none => simp
    | some p =>
      intro hcontra
      obtain ⟨p1, hps, hpm⟩ := hcontra
      obtain rfl : p = p1 := Option.some.inj hps
      exact hnone ⟨e, he, p, hp, hpm⟩

/-! Unlinked mentions (C7, C9), src/rules/unlinked_text.rs. -/

/-- `is_start_boundary` (src/rules/unlinked_text.rs:124-133): at start of
text, or the character just before the match is whitespace
(`text[..start].chars().next_back().is_none_or(char::is_whitespace)`). -/
def isStartBoundary (text : List Char) (start : Nat) : Bool :=
  if start = 0 then true
  else ((text.take start).getLast?).all Char.isWhitespace

/-- `is_start_hashtag` (src/rules/unlinked_text.rs:136-142): the text before
the match ends with `#`. -/
def isStartHashtag (text : List Char) (start : Nat) : Bool :=
  if start = 0 then false
  else (text.take start).getLast? == some '#'

/-- `is_end_boundary` (src/rules/unlinked_text.rs:145-151): at end of text, or
the character just after the match is whitespace. -/
def isEndBoundary (text : List Char) (e : Nat) : Bool :=
  if e = text.length then true
  else ((text.drop e).head?).all Char.isWhitespace

/-- `is_whole_word_match` (src/rules/unlinked_text.rs:119-121). -/
def isWholeWordMatch (text : List Char) (start e : Nat) : Bool :=
  isStartBoundary text start && isEndBoundary text e && !isStartHashtag text start

/-- The comrak node payloads `UnlinkedTextVisitor::_visit` distinguishes:
text nodes are searched, a wikilink parent suppresses matches; everything
else (document, emphasis, ...) is just a container for this rule. -/
inductive MdNodeVal where
  | document
  | textNode (s : String)
  | wikiLink (url : String)
  | emph
deriving DecidableEq

/-- The `NodeValue::WikiLink(_)` test on the node's direct parent
(src/rules/unlinked_text.rs:192-197). -/
def parentIsWikilink : Option MdNodeVal → Bool
  | some (.wikiLink _) => true
  | _ => false

/-- The per-text-node filter of `UnlinkedTextVisitor::_visit`
(src/rules/unlinked_text.rs:157-203): `found` is the list of `(start, end)`
matches the case-insensitive Aho-Corasick automaton over all aliases yields
on `text` (the automaton is an external crate; its output is an input here).
A match is recorded iff `is_whole_word_match` passes and the node's DIRECT
parent is not a wikilink node. -/
def unlinkedVisitKeep (text : List Char) (found : List (Nat × Nat))
    (parent : Option MdNodeVal) : List (Nat × Nat) :=
  found.filter fun se => isWholeWordMatch text se.1 se.2 && !parentIsWikilink parent

/-- A comrak parse (sub)tree: a node payload and its children. -/
inductive MdTree where
  | mk (val : MdNodeVal) (children : List MdTree)

mutual
/-- The pass-2 tree walk restricted to `UnlinkedTextVisitor`: every node is
visited with its direct parent's payload at hand (`node.parent()`), and the
matches kept on each text node are collected in traversal order. -/
def collectUnlinked (matcher : String → List (Nat × Nat)) :
    Option MdNodeVal → MdTree → List (String × Nat × Nat)
  | parent, .mk v cs =>
    (match v with
     | .textNode s =>
        (unlinkedVisitKeep s.data (matcher s) parent).map fun se => (s, se.1, se.2)
     | _ => []) ++ collectUnlinkedForest matcher (some v) cs
/-- Collection over a forest of siblings. -/
def collectUnlinkedForest (matcher : String → List (Nat × Nat)) :
    Option MdNodeVal → List MdTree → List (String × Nat × Nat)
  | _, [] => []
  | parent, t :: ts =>
      collectUnlinked matcher parent t ++ collectUnlinkedForest matcher parent ts
end

mutual
/-- Whether the tree contains a text node with content `s` lying strictly
below some wikilink node; `underWl` records whether an ancestor seen so far
is a wikilink. -/
def textUnderWikilink (underWl : Bool) (s : String) : MdTree → Bool
  | .mk v cs =>
    (match v with
     | .textNode s2 => underWl && s2 == s
     | _ => false) ||
      textUnderWikilinkForest
        (underWl || (match v with | .wikiLink _ => true | _ => false)) s cs
/-- Forest version of `textUnderWikilink`. -/
def textUnderWikilinkForest (underWl : Bool) (s : String) : List MdTree → Bool
  | [] => false
  | t :: ts => textUnderWikilink underWl s t || textUnderWikilinkForest underWl s ts
end

/-- The Aho-Corasick matches for the alias set {"cat"}: the text "cat dog"
contains one occurrence of "cat", at positions 0..3; no other node text
matches. -/
def catMatcher (s : String) : List (Nat × Nat) :=
  if s = "cat dog" then [(0, 3)] else []

/-- A document in which the text node "cat dog" sits below an emphasis node
inside a wikilink node, as comrak produces for emphasised wikilink text. -/
def wikilinkEmphTree : MdTree :=
  .mk (.wikiLink "cat") [.mk .emph [.mk (.textNode "cat dog") []]]

/-- C7 counterexample: the text node "cat dog" is a descendant of a wikilink
node (through an emphasis node), yet its "cat" occurrence IS recorded as an
unlinked mention: `_visit` consults only the DIRECT parent (`node.parent()`),
not all ancestors, so "text already inside a wikilink is never flagged" fails
for deeper descendants of a wikilink. -/
theorem unlinked_text_descendant_refuted :
    collectUnlinked catMatcher none wikilinkEmphTree = [("cat dog", 0, 3)] ∧
    textUnderWikilink false "cat dog" wikilinkEmphTree = true := by
  refine ⟨by decide, by decide⟩

/-- C7 (amended): an occurrence is recorded as an unlinked mention only if the
character before the match (when one exists) is whitespace, the text before
the match does not end in `#`, the character after the match (when one
exists) is whitespace, and the matched node's DIRECT parent is not a wikilink
node (further ancestors are not consulted); in particular an alias inside a
longer word or a `#`-prefixed tag is never flagged. -/
theorem unlinked_text_only_if (text : List Char) (found : List (Nat × Nat))
    (parent : Option MdNodeVal) (se : Nat × Nat)
    (h : se ∈ unlinkedVisitKeep text found parent) :
    se ∈ found ∧ isStartBoundary text se.1 = true ∧ isStartHashtag text se.1 = false ∧
      isEndBoundary text se.2 = true ∧ parentIsWikilink parent = false := by
  rw [unlinkedVisitKeep, List.mem_filter] at h
  obtain ⟨hmem, hcond⟩ := h
  rw [isWholeWordMatch] at hcond
  simp only [Bool.and_eq_true, Bool.not_eq_true'] at hcond
  exact ⟨hmem, hcond.1.1.1, hcond.1.2, hcond.1.1.2, hcond.2⟩

/-- Witness for the C7 only-if theorem at a concrete kept match. -/
theorem unlinked_text_only_if_witness :
    ((0, 3) : Nat × Nat) ∈ [((0, 3) : Nat × Nat)] ∧
    isStartBoundary "cat dog".data 0 = true ∧
    isStartHashtag "cat dog".data 0 = false ∧
    isEndBoundary "cat dog".data 3 = true ∧
    parentIsWikilink (some .emph) = false :=
  unlinked_text_only_if "cat dog".data [(0, 3)] (some .emph) (0, 3) (by decide)

/-! Similar filename calculation (C8), src/rules/similar_filename.rs. -/

/-- One character matched by the default `filename_spacing_pattern` regex
`-|_|\s`. -/
def spacingChar (c : Char) : Bool := c == '-' || c == '_' || c.isWhitespace

/-- `is_match` of the regex `^<escape(f1)>(<spacing>)` that
`skip_special_cases` builds (src/rules/similar_filename.rs:244,251), for the
default spacing pattern: `f2` starts with `f1` followed by one spacing
character. -/
def prefixWithSpacing (f1 f2 : String) : Bool :=
  (f2.data.take f1.data.length == f1.data) &&
    ((f2.data.drop f1.data.length).head?.any spacingChar)

/-- `SimilarFilename::skip_special_cases` (src/rules/similar_filename.rs
233-266): skip the pair when either bare filename extends the other by one
spacing match (`out1 || out2`). -/
def skipSpecialCases (file1 file2 : String) : Bool :=
  prefixWithSpacing (getFilename file1) (getFilename file2) ||
  prefixWithSpacing (getFilename file2) (getFilename file1)

/-- The word counter behind `Ngram::nb_words` (src/ngrams.rs):
`split_whitespace().count()`, tracking whether a word is in progress. -/
def countWords : List Char → Bool → Nat
  | [], _ => 0
  | c :: rest, inWord =>
    if c.isWhitespace then countWords rest false
    else (if inWord then 0 else 1) + countWords rest true

/-- `Ngram::nb_words`: the number of whitespace-separated words. -/
def nbWords (s : String) : Nat := countWords s.data false

/-- Boolean subsequence test: the first list occurs inside the second, in
order, possibly with gaps. -/
def isSubseqB : List Char → List Char → Bool
  | [], _ => true
  | _ :: _, [] => false
  | a :: as, b :: bs => if a = b then isSubseqB as bs else isSubseqB (a :: as) bs

/-- Modelled from the spec: the scorer applied to each candidate pair is the
external `fuzzy_matcher::SkimMatcherV2` crate, absent from this repository's
sources. Per the spec it is a "fuzzy subsequence-match scorer (integer score,
higher = closer; no match = skip)": when the pattern is a subsequence of the
choice the score is positive (here the number of matched pattern
characters), otherwise there is no match. -/
def fuzzyMatch (choice pattern : String) : Option Int :=
  if isSubseqB pattern.data choice.data then some (pattern.data.length : Int) else none

/-- One match produced by `SimilarFilename::calculate`: both files, both
ngrams and the fuzzy score. -/
structure SimMatch where
  file1 : String
  ngram1 : String
  file2 : String
  ngram2 : String
  score : Int
deriving DecidableEq

/-- The inner loop of `SimilarFilename::calculate`
(src/rules/similar_filename.rs:177-223) for one outer `(ngram, filepath)`
entry: a candidate is skipped when the word counts differ, when the unordered
ngram pair is in `ignore_word_pairs`, when both sides are the same file, or
when `skip_special_cases` fires; otherwise it is scored, and the FIRST
candidate whose score exceeds the threshold yields the match and ends the
search for this ngram (`break`). -/
def innerScan (ignorePairs : List (String × String)) (threshold : Int)
    (ngram filepath : String) : List (String × String) → Option SimMatch
  | [] => none
  | (otherNgram, otherFilepath) :: rest =>
    if nbWords ngram ≠ nbWords otherNgram then
      innerScan ignorePairs threshold ngram filepath rest
    else if ignorePairs.any fun ab =>
        (ab.1 == ngram && ab.2 == otherNgram) || (ab.1 == otherNgram && ab.2 == ngram) then
      innerScan ignorePairs threshold ngram filepath rest
    else if filepath == otherFilepath then
      innerScan ignorePairs threshold ngram filepath rest
    else if skipSpecialCases filepath otherFilepath then
      innerScan ignorePairs threshold ngram filepath rest
    else
      match fuzzyMatch ngram otherNgram with
      | some score =>
        if score > threshold then some ⟨filepath, ngram, otherFilepath, otherNgram, score⟩
        else innerScan ignorePairs threshold ngram filepath rest
      | none => innerScan ignorePairs threshold ngram filepath rest

/-- `SimilarFilename::calculate` (src/rules/similar_filename.rs:151-229): the
ngram table (a HashMap whose entries are modelled as a list) is scanned
pairwise; each outer entry contributes at most its first match. -/
def calculate (fileNgrams : List (String × String)) (threshold : Int)
    (ignorePairs : List (String × String)) : List SimMatch :=
  fileNgrams.filterMap fun np => innerScan ignorePairs threshold np.1 np.2 fileNgrams

/-- C8: with files `foo.md` and `foo___bar.md` (bare names `foo` and
`foo___bar`, default spacing pattern matching `_`), the prefix-group rule
suppresses every report for the pair; with `foo.md` versus `fooo.md` (not
separated by a spacing match) at threshold 1, exactly this pair is reported,
with a score greater than 0. -/
theorem similar_filename_scenario_a :
    calculate [("foo", "foo.md"), ("bar", "foo___bar.md")] 1 [] = [] ∧
    calculate [("foo", "foo.md"), ("fooo", "fooo.md")] 1 [] =
      [⟨"fooo.md", "fooo", "foo.md", "foo", 3⟩] ∧
    ((3 : Int) > 0) := by
  refine ⟨by decide, by decide, by decide⟩

/-! The UnlinkedText fix (C9), src/rules/unlinked_text.rs `fix`. -/

/-- `UnlinkedText::fix` (src/rules/unlinked_text.rs:52-73): the whole new file
content is computed from the report's own captured snapshot
(`self.src.inner()`): `]]` is appended at `start + len` (pushed at the very
end when that position reaches past the snapshot), then `[[` is inserted at
`start`. The current on-disk content plays no role. -/
def spliceWikilink (snapshot : String) (start len : Nat) : String :=
  let e := start + len
  let withClose : List Char :=
    if snapshot.data.length ≤ e then snapshot.data ++ [']', ']']
    else snapshot.data.take e ++ [']', ']'] ++ snapshot.data.drop e
  ⟨withClose.take start ++ ['[', '['] ++ withClose.drop start⟩

/-- One UnlinkedText report as its `fix` consumes it: the snapshot of the file
content captured when the report was built, and the span to wrap. -/
structure UnlinkedFix where
  snapshot : String
  start : Nat
  len : Nat
deriving DecidableEq

/-- The fix pass of `fix` (src/lib.rs:166-183) over several UnlinkedText
reports for one file: each fix writes the file (`std::fs::write`) with
content computed solely from its own snapshot, replacing whatever earlier
fixes wrote. -/
def applyUnlinkedFixes (content0 : String) (reports : List UnlinkedFix) : String :=
  reports.foldl (fun _ r => spliceWikilink r.snapshot r.start r.len) content0

/-- C9: after a fix pass over any non-empty UnlinkedText report list for one
file, the file holds exactly the LAST report's splice of its own snapshot —
every earlier fix's insertion is discarded; concretely, fixing the reports
for the two mentions in "cat dog" (snapshots captured before the pass)
leaves "cat [[dog]]": only the second mention stays wrapped. -/
theorem unlinked_fix_last_write_wins (content0 : String) (rs : List UnlinkedFix)
    (r : UnlinkedFix) :
    applyUnlinkedFixes content0 (rs ++ [r]) =
        spliceWikilink r.snapshot r.start r.len ∧
    applyUnlinkedFixes "cat dog" [⟨"cat dog", 0, 3⟩, ⟨"cat dog", 4, 3⟩] = "cat [[dog]]" := by
  constructor
  · rw [applyUnlinkedFixes, List.foldl_append]
    rfl
  · decide
